import Mathlib

/-!
Shallow embedding of the djenterator repository (files `music.py` and
`djentils.py`) and proofs of the specification claims about it.

Modelling conventions:
  - `random.random()` is modelled by an ambient stream of rational draws
    `g : Nat → ℚ` together with a counter that every function threads
    through and returns; each call to the source's `_roll()` reads one
    draw and advances the counter, in exactly the order the Python code
    evaluates them.  The probability constants (Python floats) are the
    corresponding rationals.
  - Python lists of one-character strings become `List Char`; in-place
    mutation becomes returning the updated lists.  `l[i] = x` is
    `List.set`, `l[i]` reads are `List.getD` (all call sites stay in
    bounds, as in the source), and the slice assignment
    `notes[i:i+2] = toadd` is `notes.take i ++ toadd ++ notes.drop (i+2)`.
  - `while` loops whose bound is not structural take an explicit fuel
    argument; loops the source guarantees to terminate are called with
    enough fuel to be exact, while the genuinely unbounded loops
    (`_roll_effects`, the phrase loops of `gen_song`) return an `Option`
    that is `none` when the fuel runs out, so every theorem about their
    results is conditional on the call returning.
-/

namespace Djenterator

/-- Stream of random draws standing for successive `random.random()` calls. -/
abbrev Draws := Nat → ℚ

/-! ## music.py -/

/-- Python's `str.lower()` on the ASCII strings this repository uses,
modelled over the underlying character list so that proofs can evaluate
it. -/
def str_lower (s : String) : String := String.mk (s.data.map Char.toLower)

/-- The tuple `CHROMATIC_NOTES` of `music.py`. -/
def CHROMATIC_NOTES : List String :=
  ["a", "a#", "b", "c", "c#", "d", "d#", "e", "f", "f#", "g", "g#"]

/-- The function `next_note` of `music.py`: index of the (lowercased) base
note in the chromatic table, plus the offset, modulo 12, looked up in the
table again. -/
def next_note (base_note : String) (offset : Int) : String :=
  let base_index : Int := (CHROMATIC_NOTES.indexOf (str_lower base_note) : Nat)
  let next_index : Int := (base_index + offset) % (CHROMATIC_NOTES.length : Int)
  CHROMATIC_NOTES.getD next_index.toNat ""

/-- The class `Tuning` of `music.py`: the three attributes set by
`Tuning.__init__`. -/
structure Tuning where
  base_note : String
  tuning_type : String
  notes : List String
deriving DecidableEq, Repr

/-- The loop `for i in range(2, num_strings)` of `Tuning.__init__`, which
appends one note per remaining string: 5 semitones up from the previous
string except the second-to-last string, which is 4 up.  The fuel is the
number of remaining loop iterations; `Tuning.init` passes
`num_strings - 2`, which makes this function compute exactly what the
Python loop does. -/
def Tuning.init_loop (notes : List String) (i num_strings : Nat) (fuel : Nat) :
    List String :=
  match fuel with
  | 0 => notes
  | fuel + 1 =>
    if i < num_strings then
      Tuning.init_loop
        (notes ++ [next_note (notes.getD (i - 1) "")
          (if i ≠ num_strings - 2 then 5 else 4)])
        (i + 1) num_strings fuel
    else notes

/-- The constructor `Tuning.__init__` of `music.py`.  It performs no
validation: it stores the lowercased base note and tuning type, starts the
note list with the base note (original case), appends the note 7 semitones
up when `tuning_type == 'drop'` and 5 up otherwise, and then runs the loop
over the remaining strings. -/
def Tuning.init (tuning_type base_note : String) (num_strings : Nat) : Tuning :=
  let notes1 := [base_note] ++
    [next_note base_note (if tuning_type = "drop" then 7 else 5)]
  { base_note := str_lower base_note
    tuning_type := str_lower tuning_type
    notes := Tuning.init_loop notes1 2 num_strings (num_strings - 2) }

/-- The module-level default `_DEFAULT_TUNING = music.Tuning("drop", "a")`
of `djentils.py` (the default string count of `Tuning.__init__` is 9). -/
def DEFAULT_TUNING : Tuning := Tuning.init "drop" "a" 9

/-- The class `_PhraseLine` of `music.py`: a line of notes on one string. -/
structure PhraseLine where
  base_note : String
  notes : List Char
deriving DecidableEq, Repr

/-- The constructor `_PhraseLine.__init__`: lowercased base note and an
all-`'-'` note list. -/
def PhraseLine.init (base_note : String) (num_notes : Nat) : PhraseLine :=
  { base_note := str_lower base_note, notes := List.replicate num_notes '-' }

/-- The class `_MuteLine` of `music.py`. -/
structure MuteLine where
  notes : List Char
deriving DecidableEq, Repr

/-- The constructor `_MuteLine.__init__`: an all-`'-'` note list. -/
def MuteLine.init (num_notes : Nat) : MuteLine :=
  { notes := List.replicate num_notes '-' }

/-- The class `_Phrase` of `music.py`. -/
structure Phrase where
  num_strings : Nat
  lines : List PhraseLine
  mute_line : MuteLine
deriving DecidableEq, Repr

/-- The constructor `_Phrase.__init__`: one `_PhraseLine` per string,
string number `i` labeled with `tuning_notes[strs - i - 1]`, plus one
`_MuteLine`. -/
def Phrase.init (tuning : Tuning) (num_notes num_strings : Nat) : Phrase :=
  let tuning_notes := tuning.notes
  let strs := num_strings
  { num_strings := strs
    lines := (List.range strs).map
      (fun string_num =>
        PhraseLine.init (tuning_notes.getD (strs - string_num - 1) "") num_notes)
    mute_line := MuteLine.init num_notes }

/-- The method `_Phrase.set_notes`: overwrite the notes of the last line
(`self.lines[self.num_strings-1]`, keeping its label) and of the mute
line. -/
def Phrase.set_notes (p : Phrase) (notes mutes : List Char) : Phrase :=
  { p with
    lines := p.lines.set (p.num_strings - 1)
      { (p.lines.getD (p.num_strings - 1) ⟨"", []⟩) with notes := notes }
    mute_line := { notes := mutes } }

/-- The class `Song` of `music.py`. -/
structure Song where
  phrase_ls : List Phrase
  tuning : Tuning
deriving DecidableEq, Repr

/-- The constructor `Song.__init__`: an empty phrase list. -/
def Song.init (tuning : Tuning) : Song :=
  { phrase_ls := [], tuning := tuning }

/-- The method `Song.add_phrase`: build a `_Phrase` for this song's tuning
with `num_notes = len(notes)` and `num_strings = len(self._tuning.notes())`,
fill it with `set_notes`, and append it. -/
def Song.add_phrase (s : Song) (notes mutes : List Char) : Song :=
  let num_notes := notes.length
  let num_strings := s.tuning.notes.length
  let phrase := (Phrase.init s.tuning num_notes num_strings).set_notes notes mutes
  { s with phrase_ls := s.phrase_ls ++ [phrase] }

/-! ## djentils.py -/

/-- The option `NOTES_PER_PHRASE = 64` of `djentils.py`. -/
def NOTES_PER_PHRASE : Nat := 64

/-- The probability `NOTE_RATE = 0.5`. -/
def NOTE_RATE : ℚ := mkRat 1 2

/-- The probability `ZERO_RATE = 0.75`. -/
def ZERO_RATE : ℚ := mkRat 3 4

/-- The probability `MUTE_RATE = 0.5`. -/
def MUTE_RATE : ℚ := mkRat 1 2

/-- The probability `HAMMERPULL_RATE = 0.2`. -/
def HAMMERPULL_RATE : ℚ := mkRat 1 5

/-- The probability `MEASURE_REPEAT_RATE = 0.55`. -/
def MEASURE_REPEAT_RATE : ℚ := mkRat 11 20

/-- The probability `TREMOLO_RATE = 0.4`. -/
def TREMOLO_RATE : ℚ := mkRat 2 5

/-- The probability `PHRASE_REPEAT_RATE = 0.5`. -/
def PHRASE_REPEAT_RATE : ℚ := mkRat 1 2

/-- The global `_BAD_ENDINGS = ['h', 'p']` of `djentils.py`. -/
def BAD_ENDINGS : List Char := ['h', 'p']

/-- The function `_empty_note_ls` of `djentils.py`. -/
def empty_note_ls : List Char := List.replicate NOTES_PER_PHRASE '-'

/-- The function `_roll_note_and_mute` of `djentils.py`: one draw for the
note (`'0'` versus `'1'`), one draw for the mute (`'m'` versus `'-'`). -/
def roll_note_and_mute (g : Draws) (n : Nat) : (Char × Char) × Nat :=
  ((if g n < ZERO_RATE then '0' else '1',
    if g (n + 1) < MUTE_RATE then 'm' else '-'), n + 2)

/-- The function `_roll_tremolo` of `djentils.py`:
`while index < end - 1`, draw against `NOTE_RATE`; on success write a fresh
note/mute pair at the cursor and advance, on failure break.  The fuel is
an upper bound on the number of loop steps; every call site passes
`e - index`, which is enough for the result to agree with the unbounded
Python loop. -/
def roll_tremolo (g : Draws) (notes mutes : List Char) (index e n fuel : Nat) :
    List Char × List Char × Nat × Nat :=
  match fuel with
  | 0 => (notes, mutes, index, n)
  | fuel + 1 =>
    if index < e - 1 then
      if g n < NOTE_RATE then
        let r := roll_note_and_mute g (n + 1)
        roll_tremolo g (notes.set index r.1.1) (mutes.set index r.1.2)
          (index + 1) e r.2 fuel
      else (notes, mutes, index, n + 1)
    else (notes, mutes, index, n)

/-- The function `_add_hammerpull` of `djentils.py`: a two-symbol extension
determined by the note before the cursor (`'0'` gives `['h','1']`, anything
else gives `['p','0']`), written with the slice assignment
`notes[index:index+2] = toadd`; one draw decides whether the second slot of
the pair is muted. -/
def add_hammerpull (g : Draws) (notes mutes : List Char) (index n : Nat) :
    List Char × List Char × Nat × Nat :=
  let toadd : List Char :=
    if notes.getD (index - 1) '-' = '0' then ['h', '1'] else ['p', '0']
  let notes1 := notes.take index ++ toadd ++ notes.drop (index + 2)
  let mutes1 := if g n < MUTE_RATE then mutes.set (index + 1) 'm' else mutes
  (notes1, mutes1, index + 2, n + 1)

/-- The loop of `_roll_effects` of `djentils.py`: while the cursor is not
within one slot of the end, draw `tremolo` and `hammerpull`; run
`_roll_tremolo` if `tremolo` fired, run `_add_hammerpull` if `hammerpull`
fired and there is still room, and stop as soon as neither fired.  The
parameter `e` is the `end = len(notes)` captured at entry.  This loop does
not terminate for every draw stream (`tremolo` can keep firing without
adding notes), so it is fueled and returns `none` on exhaustion. -/
def roll_effects (g : Draws) (notes mutes : List Char) (index e n fuel : Nat) :
    Option (List Char × List Char × Nat × Nat) :=
  match fuel with
  | 0 => none
  | fuel + 1 =>
    if index < e - 1 then
      let tremolo : Bool := decide (g n < TREMOLO_RATE)
      let hammerpull : Bool := decide (g (n + 1) < HAMMERPULL_RATE)
      let r1 := if tremolo then roll_tremolo g notes mutes index e (n + 2) (e - index)
                else (notes, mutes, index, n + 2)
      let r2 := if hammerpull && decide (r1.2.2.1 < e - 1)
                then add_hammerpull g r1.1 r1.2.1 r1.2.2.1 r1.2.2.2
                else r1
      if tremolo || hammerpull then
        roll_effects g r2.1 r2.2.1 r2.2.2.1 e r2.2.2.2 fuel
      else some r2
    else some (notes, mutes, index, n)

/-- The function `_roll_repeated_measures` of `djentils.py`: with
probability `MEASURE_REPEAT_RATE`, overwrite the second half of both lists
with a copy of the first half (`notes[halfway:] = notes[:halfway]`), then,
if the slot at `halfway - 1` holds a bad ending (`'h'` or `'p'`), reroll a
fresh note/mute pair into slot `halfway - 1`. -/
def roll_repeated_measures (g : Draws) (notes mutes : List Char) (n : Nat) :
    List Char × List Char × Nat :=
  if g n < MEASURE_REPEAT_RATE then
    let halfway := notes.length / 2
    let notes1 := notes.take halfway ++ notes.take halfway
    let mutes1 := mutes.take halfway ++ mutes.take halfway
    if notes1.getD (halfway - 1) '-' ∈ BAD_ENDINGS then
      let r := roll_note_and_mute g (n + 1)
      (notes1.set (halfway - 1) r.1.1, mutes1.set (halfway - 1) r.1.2, r.2)
    else (notes1, mutes1, n + 1)
  else (notes, mutes, n + 1)

/-- The loop of `_gen_phrase` of `djentils.py`: at each cursor position one
draw decides whether a note starts there; on success a note/mute pair is
written and `_roll_effects` runs from the next slot, on failure the cursor
just advances.  Fueled because `_roll_effects` is. -/
def gen_phrase_loop (g : Draws) (notes mutes : List Char) (index n fuel : Nat) :
    Option (List Char × List Char × Nat) :=
  match fuel with
  | 0 => none
  | fuel + 1 =>
    if index < NOTES_PER_PHRASE then
      if g n < NOTE_RATE then
        let r := roll_note_and_mute g (n + 1)
        let notes1 := notes.set index r.1.1
        let mutes1 := mutes.set index r.1.2
        match roll_effects g notes1 mutes1 (index + 1) notes1.length r.2 fuel with
        | none => none
        | some (notes2, mutes2, index2, n2) =>
          gen_phrase_loop g notes2 mutes2 index2 n2 fuel
      else gen_phrase_loop g notes mutes (index + 1) (n + 1) fuel
    else some (notes, mutes, n)

/-- The function `_gen_phrase` of `djentils.py`: run the generation loop on
two fresh all-`'-'` lists of length `NOTES_PER_PHRASE`.  Returns the two
lists and the advanced draw counter. -/
def gen_phrase (g : Draws) (n fuel : Nat) : Option (List Char × List Char × Nat) :=
  gen_phrase_loop g empty_note_ls empty_note_ls 0 n fuel

/-- Comparison of the running phrase count with `max_phrases`, which is
`float("inf")` (here `none`) when unbounded. -/
def lt_cap (num_phrases : Nat) : Option Nat → Bool
  | none => true
  | some m => decide (num_phrases < m)

/-- The value `min(min_phrases, max_phrases)` of `gen_song`, with
`max_phrases = float("inf")` modelled as `none`. -/
def min_cap (min_phrases : Nat) : Option Nat → Nat
  | none => min_phrases
  | some m => min min_phrases m

/-- The inner loop of `gen_song`:
`while random.random() < PHRASE_REPEAT_RATE and num_phrases < max_phrases`,
append the same phrase again.  Unbounded when the cap is infinite, hence
fueled. -/
def repeat_phrase_loop (g : Draws) (song : Song) (notes mutes : List Char)
    (num_phrases : Nat) (cap : Option Nat) (n fuel : Nat) :
    Option (Song × Nat × Nat) :=
  match fuel with
  | 0 => none
  | fuel + 1 =>
    if decide (g n < PHRASE_REPEAT_RATE) && lt_cap num_phrases cap then
      repeat_phrase_loop g (song.add_phrase notes mutes) notes mutes
        (num_phrases + 1) cap (n + 1) fuel
    else some (song, num_phrases, n + 1)

/-- The outer loop of `gen_song`:
`while num_phrases < min(min_phrases, max_phrases)`, generate a phrase,
append it, and run the repetition loop. -/
def gen_song_loop (g : Draws) (song : Song) (num_phrases min_phrases : Nat)
    (cap : Option Nat) (n fuel : Nat) : Option Song :=
  match fuel with
  | 0 => none
  | fuel + 1 =>
    if num_phrases < min_cap min_phrases cap then
      match gen_phrase g n fuel with
      | none => none
      | some (notes, mutes, n1) =>
        match repeat_phrase_loop g (song.add_phrase notes mutes) notes mutes
            (num_phrases + 1) cap n1 fuel with
        | none => none
        | some (song2, num2, n2) =>
          gen_song_loop g song2 num2 min_phrases cap n2 fuel
    else some song

/-- The function `gen_song` of `djentils.py`.  `max_phrases` may be `none`
(the Python `None` default) or `some m`; the guard `if not max_phrases`
treats both `None` and `0` as falsy and replaces them with `float("inf")`,
modelled by normalising the cap to `none` in those two cases. -/
def gen_song (g : Draws) (min_phrases : Nat) (max_phrases : Option Nat)
    (tuning : Tuning) (n fuel : Nat) : Option Song :=
  let cap : Option Nat :=
    match max_phrases with
    | none => none
    | some 0 => none
    | some m => some m
  gen_song_loop g (Song.init tuning) 0 min_phrases cap n fuel

/-! ## Concrete inputs used by witnesses and counterexamples -/

/-- A draw stream whose every draw is `0.99`: every probability check in
the source fails (all rates are at most `0.75`). -/
def drawsHigh : Draws := fun _ => mkRat 99 100

/-- A draw stream whose every draw is `0`: every probability check in the
source succeeds. -/
def drawsZero : Draws := fun _ => 0

/-- A two-string drop-A tuning, used as a small concrete tuning. -/
def T2 : Tuning := Tuning.init "drop" "a" 2

/-- A reachable phrase note line whose first half ends in `'h'`: slots 30,
31, 32 hold `'0'`, `'h'`, `'1'` (a hammer-on pair written at slots 31-32)
and every other slot is silent. -/
def bad_notes : List Char :=
  List.replicate 30 '-' ++ ['0', 'h', '1'] ++ List.replicate 31 '-'

/-- The all-unmuted mute line accompanying `bad_notes`. -/
def bad_mutes : List Char := List.replicate 64 '-'

/-- Convenience read of the `i`-th phrase of a song (empty phrase when out
of range). -/
def phrase_at (s : Song) (i : Nat) : Phrase :=
  s.phrase_ls.getD i ⟨0, [], ⟨[]⟩⟩

/-- Folding `Song.add_phrase` over a list of note/mute pairs, the way
`gen_song` grows a song. -/
def add_phrases (s : Song) : List (List Char × List Char) → Song
  | [] => s
  | pr :: ps => add_phrases (s.add_phrase pr.1 pr.2) ps

/-- The phrase that `Song.add_phrase` constructs for a tuning `t` from a
note/mute pair. -/
def made_phrase (t : Tuning) (pr : List Char × List Char) : Phrase :=
  (Phrase.init t pr.1.length t.notes.length).set_notes pr.1 pr.2

/-- The generator invariant at cursor `c` for lists of length `e`: a muted
slot always holds a struck note (`'0'` or `'1'`), and no slot from the
cursor on has been muted yet. -/
def Inv (notes mutes : List Char) (c e : Nat) : Prop :=
  notes.length = e ∧ mutes.length = e ∧
  (∀ i, mutes.getD i '-' = 'm' →
    notes.getD i '-' = '0' ∨ notes.getD i '-' = '1') ∧
  (∀ i, c ≤ i → mutes.getD i '-' = '-')

/-! ## List helper lemmas -/

/-- Reading a list after an in-bounds update. -/
theorem getD_set {α : Type _} (l : List α) (i j : Nat) (a d : α) :
    (l.set i a).getD j d = if j = i ∧ i < l.length then a else l.getD j d := by
  induction l generalizing i j with
  | nil => simp
  | cons x t ih =>
    cases i with
    | zero =>
      cases j with
      | zero => simp
      | succ m => simp
    | succ k =>
      cases j with
      | zero => simp
      | succ m =>
        simpa [Nat.succ_lt_succ_iff] using ih k m

/-- Reading a replicated list with its own element as default. -/
theorem getD_replicate_self {α : Type _} (k i : Nat) (c : α) :
    (List.replicate k c).getD i c = c := by
  induction k generalizing i with
  | zero => simp
  | succ k ih => cases i <;> simp [List.replicate_succ, ih]

/-- The Python slice assignment `l[i:i+2] = [a, b]` is, while `i + 2` is in
bounds, the same as two point updates. -/
theorem take_append_drop_eq_set_set {α : Type _} :
    ∀ (l : List α) (i : Nat) (a b : α), i + 2 ≤ l.length →
      l.take i ++ [a, b] ++ l.drop (i + 2) = (l.set i a).set (i + 1) b := by
  intro l
  induction l with
  | nil => intro i a b h; simp at h
  | cons x t ih =>
    intro i a b h
    cases i with
    | zero =>
      cases t with
      | nil => simp at h
      | cons y t2 => simp
    | succ k =>
      have h2 : k + 2 ≤ t.length := by
        simpa [Nat.succ_le_succ_iff] using h
      simpa using ih k a b h2

/-! ## The generator invariant -/

/-- The pair drawn by `_roll_note_and_mute` is a struck note and a mute
flag. -/
theorem roll_note_and_mute_mem (g : Draws) (n : Nat) :
    ((roll_note_and_mute g n).1.1 = '0' ∨ (roll_note_and_mute g n).1.1 = '1') ∧
    ((roll_note_and_mute g n).1.2 = 'm' ∨ (roll_note_and_mute g n).1.2 = '-') := by
  simp only [roll_note_and_mute]
  constructor <;> split <;> simp

/-- Writing a fresh note/mute pair at the cursor preserves the invariant
and moves the cursor one slot right. -/
theorem write_pair_inv {notes mutes : List Char} {c e : Nat} {note mute : Char}
    (hn : note = '0' ∨ note = '1') (hm : mute = 'm' ∨ mute = '-')
    (h : Inv notes mutes c e) :
    Inv (notes.set c note) (mutes.set c mute) (c + 1) e := by
  obtain ⟨h1, h2, h3, h4⟩ := h
  refine ⟨by simp [h1], by simp [h2], ?_, ?_⟩
  · intro i hi
    rw [getD_set] at hi
    rw [getD_set]
    by_cases hic : i = c ∧ c < notes.length
    · rw [if_pos hic]
      exact hn
    · rw [if_neg hic]
      by_cases hic2 : i = c ∧ c < mutes.length
      · exact absurd ⟨hic2.1, by omega⟩ hic
      · rw [if_neg hic2] at hi
        exact h3 i hi
  · intro i hi
    rw [getD_set, if_neg]
    · exact h4 i (by omega)
    · intro hcon
      omega

/-- Writing a hammer-on/pull-off pair at the cursor (second symbol a struck
note, and optionally a mute on the second slot) preserves the invariant and
moves the cursor two slots right. -/
theorem hammer_write_inv {notes mutes : List Char} {idx e : Nat} {a b : Char}
    (hb : b = '0' ∨ b = '1') (hile : idx + 2 ≤ e) (h : Inv notes mutes idx e)
    (mutes1 : List Char)
    (hm1 : mutes1 = mutes.set (idx + 1) 'm' ∨ mutes1 = mutes) :
    Inv ((notes.set idx a).set (idx + 1) b) mutes1 (idx + 2) e := by
  obtain ⟨h1, h2, h3, h4⟩ := h
  have hlt : idx + 1 < mutes.length := by omega
  refine ⟨by simp [h1], ?_, ?_, ?_⟩
  · rcases hm1 with rfl | rfl <;> simp [h2]
  · intro i hi
    have hnotes2 : ((notes.set idx a).set (idx + 1) b).getD i '-' =
        if i = idx + 1 then b
        else if i = idx then a else notes.getD i '-' := by
      rw [getD_set, getD_set]
      rcases Nat.lt_trichotomy i (idx + 1) with hlt' | rfl | hgt
      · rcases Nat.lt_or_ge i idx with hlt2 | hge
        · rw [if_neg (by omega), if_neg (by omega), if_neg (by omega),
            if_neg (by omega)]
        · have : i = idx := by omega
          subst this
          rw [if_neg (by omega), if_pos ⟨rfl, by omega⟩, if_neg (by omega),
            if_pos rfl]
      · rw [if_pos ⟨rfl, by simp [h1]; omega⟩, if_pos rfl]
      · rw [if_neg (by omega), if_neg (by omega), if_neg (by omega),
          if_neg (by omega)]
    rcases hm1 with rfl | rfl
    · rw [getD_set] at hi
      by_cases hi1 : i = idx + 1
      · rw [hnotes2, if_pos hi1]
        exact hb
      · rw [if_neg (by intro hcon; exact hi1 hcon.1)] at hi
        have hilt : i < idx := by
          by_contra hge
          have := h4 i (by omega)
          rw [this] at hi
          exact absurd hi (by decide)
        rw [hnotes2, if_neg hi1, if_neg (by omega)]
        exact h3 i hi
    · have hilt : i < idx := by
        by_contra hge
        have := h4 i (by omega)
        rw [this] at hi
        exact absurd hi (by decide)
      rw [hnotes2, if_neg (by omega), if_neg (by omega)]
      exact h3 i hi
  · intro i hi
    rcases hm1 with rfl | rfl
    · rw [getD_set, if_neg (by intro hcon; omega)]
      exact h4 i (by omega)
    · exact h4 i (by omega)

/-- The tremolo loop preserves the invariant, with the cursor ending where
the loop leaves it. -/
theorem roll_tremolo_inv (g : Draws) :
    ∀ (fuel : Nat) (notes mutes : List Char) (index e n : Nat),
    Inv notes mutes index e →
    Inv (roll_tremolo g notes mutes index e n fuel).1
        (roll_tremolo g notes mutes index e n fuel).2.1
        (roll_tremolo g notes mutes index e n fuel).2.2.1 e := by
  intro fuel
  induction fuel with
  | zero => intro notes mutes index e n h; exact h
  | succ fuel ih =>
    intro notes mutes index e n h
    rw [roll_tremolo]
    by_cases h1 : index < e - 1
    · rw [if_pos h1]
      by_cases h2 : g n < NOTE_RATE
      · rw [if_pos h2]
        exact ih _ _ _ _ _
          (write_pair_inv (roll_note_and_mute_mem g (n + 1)).1
            (roll_note_and_mute_mem g (n + 1)).2 h)
      · rw [if_neg h2]
        exact h
    · rw [if_neg h1]
      exact h

/-- The hammer-on/pull-off writer preserves the invariant when there is
room for its two slots, moving the cursor two slots right. -/
theorem add_hammerpull_inv (g : Draws) {notes mutes : List Char} {idx e : Nat}
    (n : Nat) (hile : idx + 2 ≤ e) (h : Inv notes mutes idx e) :
    Inv (add_hammerpull g notes mutes idx n).1
        (add_hammerpull g notes mutes idx n).2.1 (idx + 2) e := by
  have h1 : notes.length = e := h.1
  simp only [add_hammerpull]
  by_cases hp : notes.getD (idx - 1) '-' = '0'
  · rw [if_pos hp, take_append_drop_eq_set_set notes idx 'h' '1' (by omega)]
    by_cases hd : g n < MUTE_RATE
    · rw [if_pos hd]
      exact hammer_write_inv (Or.inr rfl) hile h _ (Or.inl rfl)
    · rw [if_neg hd]
      exact hammer_write_inv (Or.inr rfl) hile h _ (Or.inr rfl)
  · rw [if_neg hp, take_append_drop_eq_set_set notes idx 'p' '0' (by omega)]
    by_cases hd : g n < MUTE_RATE
    · rw [if_pos hd]
      exact hammer_write_inv (Or.inl rfl) hile h _ (Or.inl rfl)
    · rw [if_neg hd]
      exact hammer_write_inv (Or.inl rfl) hile h _ (Or.inr rfl)

/-- The effects loop preserves the invariant whenever it returns. -/
theorem roll_effects_inv (g : Draws) :
    ∀ (fuel : Nat) (notes mutes : List Char) (index e n : Nat)
      (notes2 mutes2 : List Char) (index2 n2 : Nat),
    Inv notes mutes index e →
    roll_effects g notes mutes index e n fuel = some (notes2, mutes2, index2, n2) →
    Inv notes2 mutes2 index2 e := by
  intro fuel
  induction fuel with
  | zero => intro notes mutes index e n notes2 mutes2 index2 n2 h hr; simp [roll_effects] at hr
  | succ fuel ih =>
    intro notes mutes index e n notes2 mutes2 index2 n2 h hr
    rw [roll_effects] at hr
    by_cases h1 : index < e - 1
    · rw [if_pos h1] at hr
      set r1 := if decide (g n < TREMOLO_RATE) = true
        then roll_tremolo g notes mutes index e (n + 2) (e - index)
        else (notes, mutes, index, n + 2) with hr1def
      have hinv1 : Inv r1.1 r1.2.1 r1.2.2.1 e := by
        rw [hr1def]
        split
        · exact roll_tremolo_inv g _ _ _ _ _ _ h
        · exact h
      set r2 := if (decide (g (n + 1) < HAMMERPULL_RATE) &&
          decide (r1.2.2.1 < e - 1)) = true
        then add_hammerpull g r1.1 r1.2.1 r1.2.2.1 r1.2.2.2
        else r1 with hr2def
      have hinv2 : Inv r2.1 r2.2.1 r2.2.2.1 e := by
        rw [hr2def]
        split
        next hcond =>
          have hroom : r1.2.2.1 < e - 1 := by
            have := (Bool.and_eq_true _ _).mp hcond
            exact of_decide_eq_true this.2
          exact add_hammerpull_inv g _ (by omega) hinv1
        next => exact hinv1
      by_cases h2 : (decide (g n < TREMOLO_RATE) ||
          decide (g (n + 1) < HAMMERPULL_RATE)) = true
      · rw [if_pos h2] at hr
        exact ih _ _ _ _ _ _ _ _ _ hinv2 hr
      · rw [if_neg h2] at hr
        obtain ⟨ha, hb, hc, hd⟩ :
            r2.1 = notes2 ∧ r2.2.1 = mutes2 ∧ r2.2.2.1 = index2 ∧ r2.2.2.2 = n2 := by
          have := Option.some.inj hr
          exact ⟨congrArg (·.1) this, congrArg (·.2.1) this,
            congrArg (·.2.2.1) this, congrArg (·.2.2.2) this⟩
        rw [← ha, ← hb, ← hc]
        exact hinv2
    · rw [if_neg h1] at hr
      obtain ⟨ha, hb, hc, hd⟩ :
          notes = notes2 ∧ mutes = mutes2 ∧ index = index2 ∧ n = n2 := by
        have := Option.some.inj hr
        exact ⟨congrArg (·.1) this, congrArg (·.2.1) this,
          congrArg (·.2.2.1) this, congrArg (·.2.2.2) this⟩
      rw [← ha, ← hb, ← hc]
      exact h

/-- The main generation loop of `_gen_phrase` preserves the invariant; on
return both lists have their original length `NOTES_PER_PHRASE` and every
muted slot holds a struck note. -/
theorem gen_phrase_loop_inv (g : Draws) :
    ∀ (fuel : Nat) (notes mutes : List Char) (index n : Nat)
      (notes2 mutes2 : List Char) (n2 : Nat),
    Inv notes mutes index NOTES_PER_PHRASE →
    gen_phrase_loop g notes mutes index n fuel = some (notes2, mutes2, n2) →
    notes2.length = NOTES_PER_PHRASE ∧ mutes2.length = NOTES_PER_PHRASE ∧
    (∀ i, mutes2.getD i '-' = 'm' →
      notes2.getD i '-' = '0' ∨ notes2.getD i '-' = '1') := by
  intro fuel
  induction fuel with
  | zero => intro notes mutes index n notes2 mutes2 n2 h hr; simp [gen_phrase_loop] at hr
  | succ fuel ih =>
    intro notes mutes index n notes2 mutes2 n2 h hr
    rw [gen_phrase_loop] at hr
    by_cases h1 : index < NOTES_PER_PHRASE
    · rw [if_pos h1] at hr
      by_cases h2 : g n < NOTE_RATE
      · rw [if_pos h2] at hr
        simp only [] at hr
        have hinv1 : Inv (notes.set index (roll_note_and_mute g (n + 1)).1.1)
            (mutes.set index (roll_note_and_mute g (n + 1)).1.2)
            (index + 1) NOTES_PER_PHRASE :=
          write_pair_inv (roll_note_and_mute_mem g (n + 1)).1
            (roll_note_and_mute_mem g (n + 1)).2 h
        have hlen1 : (notes.set index (roll_note_and_mute g (n + 1)).1.1).length =
            NOTES_PER_PHRASE := hinv1.1
        rw [hlen1] at hr
        cases hre : roll_effects g
            (notes.set index (roll_note_and_mute g (n + 1)).1.1)
            (mutes.set index (roll_note_and_mute g (n + 1)).1.2)
            (index + 1) NOTES_PER_PHRASE (roll_note_and_mute g (n + 1)).2 fuel with
        | none => rw [hre] at hr; exact absurd hr (by simp)
        | some r =>
          rw [hre] at hr
          obtain ⟨notesr, mutesr, indexr, nr⟩ := r
          exact ih _ _ _ _ _ _ _
            (roll_effects_inv g fuel _ _ _ _ _ _ _ _ _ hinv1 hre) hr
      · rw [if_neg h2] at hr
        refine ih _ _ _ _ _ _ _ ?_ hr
        obtain ⟨ha, hb, hc, hd⟩ := h
        exact ⟨ha, hb, hc, fun i hi => hd i (by omega)⟩
    · rw [if_neg h1] at hr
      obtain ⟨ha, hb, hc⟩ :
          notes = notes2 ∧ mutes = mutes2 ∧ n = n2 := by
        have := Option.some.inj hr
        exact ⟨congrArg (·.1) this, congrArg (·.2.1) this,
          congrArg (·.2.2) this⟩
      rw [← ha, ← hb]
      exact ⟨h.1, h.2.1, h.2.2.1⟩

/-- The two fresh all-silent lists satisfy the invariant at cursor 0. -/
theorem empty_inv : Inv empty_note_ls empty_note_ls 0 NOTES_PER_PHRASE := by
  refine ⟨by simp [empty_note_ls], by simp [empty_note_ls], ?_, ?_⟩
  · intro i hi
    rw [empty_note_ls, getD_replicate_self] at hi
    exact absurd hi (by decide)
  · intro i _
    rw [empty_note_ls, getD_replicate_self]

/-- Claim C2: for every sequence of random draws, whenever `_gen_phrase`
returns, both returned sequences have length exactly `NOTES_PER_PHRASE`
(64); no step of generation, the two-slot hammer-on/pull-off slice
assignment included, changes either length. -/
theorem gen_phrase_returns_full_length (g : Draws) (n fuel : Nat)
    (notes mutes : List Char) (n2 : Nat)
    (h : gen_phrase g n fuel = some (notes, mutes, n2)) :
    notes.length = NOTES_PER_PHRASE ∧ mutes.length = NOTES_PER_PHRASE := by
  have := gen_phrase_loop_inv g fuel empty_note_ls empty_note_ls 0 n
    notes mutes n2 empty_inv h
  exact ⟨this.1, this.2.1⟩

/-- Witness for C2: the all-failing draw stream returns two all-silent
lists of length 64. -/
theorem gen_phrase_returns_full_length_witness :
    gen_phrase drawsHigh 0 100 =
      some (List.replicate 64 '-', List.replicate 64 '-', 64) ∧
    (List.replicate 64 '-' : List Char).length = NOTES_PER_PHRASE :=
  ⟨by decide, (gen_phrase_returns_full_length drawsHigh 0 100
    (List.replicate 64 '-') (List.replicate 64 '-') 64 (by decide)).1⟩

/-- Claim C3: for every sequence of random draws and every slot of a
generated phrase, a slot whose mute symbol is `'m'` holds note symbol `'0'`
or `'1'` (never `'-'`, `'h'` or `'p'`); in particular a slot holding the
articulation marker `'h'`/`'p'` never carries a mute, only the second slot
of the two-slot pair may. -/
theorem gen_phrase_mute_only_on_struck_notes (g : Draws) (n fuel : Nat)
    (notes mutes : List Char) (n2 : Nat)
    (h : gen_phrase g n fuel = some (notes, mutes, n2)) :
    ∀ i, mutes.getD i '-' = 'm' →
      notes.getD i '-' = '0' ∨ notes.getD i '-' = '1' :=
  (gen_phrase_loop_inv g fuel empty_note_ls empty_note_ls 0 n
    notes mutes n2 empty_inv h).2.2

/-- Witness for C3: the all-succeeding draw stream generates an all-`'0'`
note line with an all-`'m'` mute line, and slot 0 indeed holds a struck
note. -/
theorem gen_phrase_mute_only_on_struck_notes_witness :
    (List.replicate 64 '0' : List Char).getD 0 '-' = '0' ∨
    (List.replicate 64 '0' : List Char).getD 0 '-' = '1' :=
  gen_phrase_mute_only_on_struck_notes drawsZero 0 100
    (List.replicate 64 '0') (List.replicate 64 'm') 194 (by decide) 0 (by decide)

/-- Claim C8: the hammer-on/pull-off extension is a deterministic function
of the note in the slot immediately before the cursor: a preceding `'0'`
produces `'h'` then `'1'`, and a preceding `'1'` produces `'p'` then
`'0'`. -/
theorem add_hammerpull_determined (g : Draws) (notes mutes : List Char)
    (index n : Nat) (h1 : 1 ≤ index) (h2 : index + 2 ≤ notes.length) :
    (notes.getD (index - 1) '-' = '0' →
      (add_hammerpull g notes mutes index n).1.getD index '-' = 'h' ∧
      (add_hammerpull g notes mutes index n).1.getD (index + 1) '-' = '1') ∧
    (notes.getD (index - 1) '-' = '1' →
      (add_hammerpull g notes mutes index n).1.getD index '-' = 'p' ∧
      (add_hammerpull g notes mutes index n).1.getD (index + 1) '-' = '0') := by
  constructor
  · intro hp
    simp only [add_hammerpull, if_pos hp]
    rw [take_append_drop_eq_set_set notes index 'h' '1' h2]
    constructor
    · rw [getD_set, if_neg (by omega), getD_set,
        if_pos ⟨rfl, by omega⟩]
    · rw [getD_set, if_pos ⟨rfl, by rw [List.length_set]; omega⟩]
  · intro hp
    have hne : ¬ notes.getD (index - 1) '-' = '0' := by
      rw [hp]; decide
    simp only [add_hammerpull, if_neg hne]
    rw [take_append_drop_eq_set_set notes index 'p' '0' h2]
    constructor
    · rw [getD_set, if_neg (by omega), getD_set,
        if_pos ⟨rfl, by omega⟩]
    · rw [getD_set, if_pos ⟨rfl, by rw [List.length_set]; omega⟩]

/-- Witness for C8: after a `'0'`, the extension written at slots 1 and 2
is `'h'` then `'1'`. -/
theorem add_hammerpull_determined_witness :
    (add_hammerpull drawsZero ['0', '-', '-'] ['-', '-', '-'] 1 0).1.getD 1 '-' = 'h' ∧
    (add_hammerpull drawsZero ['0', '-', '-'] ['-', '-', '-'] 1 0).1.getD 2 '-' = '1' :=
  (add_hammerpull_determined drawsZero ['0', '-', '-'] ['-', '-', '-'] 1 0
    (by decide) (by decide)).1 (by decide)

/-- Claim C4, evaluated at the failing input: on a phrase whose first half
ends in `'h'` (slots 30..32 hold `'0'`, `'h'`, `'1'`), a succeeding
measure-repeat draw copies the first half into the second half, leaving
`'h'` as the final symbol (slot 63), while the bad-ending fix rerolls slot
31 instead of slot 63.  This contradicts the source's own comment that
phrases cannot end in `'h'` or `'p'`. -/
theorem roll_repeated_measures_keeps_bad_final_symbol :
    (roll_repeated_measures drawsZero bad_notes bad_mutes 0).1.getD 63 '-' = 'h' ∧
    (roll_repeated_measures drawsZero bad_notes bad_mutes 0).1.length = 64 ∧
    bad_notes.getD 31 '-' = 'h' ∧
    (roll_repeated_measures drawsZero bad_notes bad_mutes 0).1.getD 31 '-' = '0' := by
  decide

/-! ## Tuning claims -/

/-- Characterisation of the `Tuning.__init__` loop: starting from a note
list of length `i ≥ 1` with enough fuel, the result has length
`max i ns`, keeps the first `i` notes, and every appended note is
`next_note` of its predecessor with offset 5, except offset 4 into string
`ns - 2`. -/
theorem init_loop_spec :
    ∀ (fuel i : Nat) (notes : List String) (ns : Nat),
    1 ≤ i → notes.length = i → ns ≤ i + fuel →
    (Tuning.init_loop notes i ns fuel).length = max i ns ∧
    (∀ j, j < i → (Tuning.init_loop notes i ns fuel).getD j "" = notes.getD j "") ∧
    (∀ j, i ≤ j → j < ns →
      (Tuning.init_loop notes i ns fuel).getD j "" =
        next_note ((Tuning.init_loop notes i ns fuel).getD (j - 1) "")
          (if j ≠ ns - 2 then 5 else 4)) := by
  intro fuel
  induction fuel with
  | zero =>
    intro i notes ns h1 h2 h3
    refine ⟨?_, fun j hj => rfl, fun j hij hjns => absurd hjns (by omega)⟩
    show notes.length = max i ns
    omega
  | succ fuel ih =>
    intro i notes ns h1 h2 h3
    rw [Tuning.init_loop]
    by_cases hc : i < ns
    · rw [if_pos hc]
      set x := next_note (notes.getD (i - 1) "") (if i ≠ ns - 2 then 5 else 4)
        with hx
      have h2x : (notes ++ [x]).length = i + 1 := by simp [h2]
      obtain ⟨ihl, ihpre, ihstep⟩ := ih (i + 1) (notes ++ [x]) ns (by omega)
        h2x (by omega)
      refine ⟨by rw [ihl]; omega, ?_, ?_⟩
      · intro j hj
        rw [ihpre j (by omega), List.getD_append _ _ _ _ (by omega)]
      · intro j hij hjns
        by_cases hji : j = i
        · subst hji
          rw [ihpre j (by omega), ihpre (j - 1) (by omega),
            List.getD_append_right _ _ _ _ (by omega),
            List.getD_append _ _ _ _ (by omega)]
          have : j - notes.length = 0 := by omega
          rw [this]
          have : j - 1 = j - 1 := rfl
          exact hx
        · exact ihstep j (by omega) hjns
    · rw [if_neg hc]
      refine ⟨?_, fun j hj => rfl, fun j hij hjns => absurd hjns (by omega)⟩
      show notes.length = max i ns
      omega

/-- Claim C5 (amended): for every base pitch, family string, and string
count at least 2, `Tuning.__init__` deterministically yields a pitch list
of length equal to the string count whose first step is `next_note` with
offset 7 for family `"drop"` and 5 otherwise, and whose later steps
(`j ≥ 2`) use offset 5, except offset 4 into string `ns - 2`.  The
second-to-last-string rule therefore only applies from 4 strings up: with
3 strings the first-step rule wins, which is the amendment forced by the
counterexample below. -/
theorem tuning_init_step_structure (tt b : String) (ns : Nat) (h : 2 ≤ ns) :
    (Tuning.init tt b ns).notes.length = ns ∧
    (Tuning.init tt b ns).notes.getD 0 "" = b ∧
    (Tuning.init tt b ns).notes.getD 1 "" =
      next_note b (if tt = "drop" then 7 else 5) ∧
    ∀ j, 2 ≤ j → j < ns →
      (Tuning.init tt b ns).notes.getD j "" =
        next_note ((Tuning.init tt b ns).notes.getD (j - 1) "")
          (if j ≠ ns - 2 then 5 else 4) := by
  obtain ⟨hl, hpre, hstep⟩ := init_loop_spec (ns - 2) 2
    ([b] ++ [next_note b (if tt = "drop" then 7 else 5)]) ns (by omega) rfl
    (by omega)
  simp only [Tuning.init]
  refine ⟨by rw [hl]; omega, ?_, ?_, fun j hj hjns => hstep j hj hjns⟩
  · rw [hpre 0 (by omega)]
    rfl
  · rw [hpre 1 (by omega)]
    rfl

/-- Counterexample for C5: with 3 strings the transition into the
second-to-last string (string index 1) is the first step, which uses offset
7 under family `"drop"`, not the claimed 4: the note is `"e"`, while a
4-semitone step from `"a"` would give `"c#"`. -/
theorem tuning_three_strings_counterexample :
    (Tuning.init "drop" "a" 3).notes = ["a", "e", "a"] ∧
    next_note "a" 4 = "c#" ∧
    ¬ (Tuning.init "drop" "a" 3).notes.getD (3 - 2) "" =
      next_note ((Tuning.init "drop" "a" 3).notes.getD 0 "") 4 := by
  decide

/-- Witness for C5: the 6-string drop-A tuning has 6 pitches. -/
theorem tuning_init_step_structure_witness :
    2 ≤ 6 ∧ (Tuning.init "drop" "a" 6).notes.length = 6 :=
  ⟨by decide, (tuning_init_step_structure "drop" "a" 6 (by decide)).1⟩

/-- Claim C6 (amended): building a drop-family tuning from base `"a"` with
6 strings yields the pitches `[a, e, a, d, f#, b]` (thickest to thinnest)
under the literal chromatic table; the spec's expected list
`[a, e, a, d, g, c]` does not match the code's offsets. -/
theorem tuning_drop_a6_value :
    (Tuning.init "drop" "a" 6).notes = ["a", "e", "a", "d", "f#", "b"] := by
  decide

/-- Counterexample for C6: the computed pitch list differs from the
spec's example list. -/
theorem tuning_drop_a6_not_spec_example :
    (Tuning.init "drop" "a" 6).notes = ["a", "e", "a", "d", "f#", "b"] ∧
    ¬ (Tuning.init "drop" "a" 6).notes = ["a", "e", "a", "d", "g", "c"] := by
  decide

/-- Claim C7 (amended): `Tuning.__init__` performs no validation and raises
nothing: a family other than `"drop"` (whether `"standard"` or anything
else) is treated as standard, with first-step offset 5, and any string
count, including counts below 2, still yields a tuning object, whose pitch
list has length `max 2 ns`. -/
theorem tuning_no_validation (tt b : String) (ns : Nat) :
    (tt ≠ "drop" →
      (Tuning.init tt b ns).notes.getD 1 "" = next_note b 5) ∧
    (Tuning.init tt b ns).notes.length = max 2 ns := by
  constructor
  · intro hne
    obtain ⟨hl, hpre, hstep⟩ := init_loop_spec (ns - 2) 2
      ([b] ++ [next_note b (if tt = "drop" then 7 else 5)]) ns (by omega) rfl
      (by omega)
    simp only [Tuning.init, if_neg hne]
    have := hpre 1 (by omega)
    rw [if_neg hne] at this
    rw [this]
    rfl
  · obtain ⟨hl, hpre, hstep⟩ := init_loop_spec (ns - 2) 2
      ([b] ++ [next_note b (if tt = "drop" then 7 else 5)]) ns (by omega) rfl
      (by omega)
    simp only [Tuning.init]
    rw [hl]

/-- Counterexample for C7: an unrecognized family (`"dorp"`) and a string
count of 1 both construct tuning objects instead of failing; no
`InvalidConfiguration` error exists in `music.py`. -/
theorem tuning_invalid_inputs_still_build :
    (Tuning.init "dorp" "a" 6).notes = ["a", "d", "g", "c", "e", "a"] ∧
    (Tuning.init "standard" "a" 1).notes.length = 2 := by
  decide

/-- Witness for C7: the unrecognized family `"dorp"` gets the standard
first-step offset 5. -/
theorem tuning_no_validation_witness :
    (Tuning.init "dorp" "a" 6).notes.getD 1 "" = next_note "a" 5 :=
  (tuning_no_validation "dorp" "a" 6).1 (by decide)

/-! ## Song assembly claims -/

/-- Appending a phrase grows the phrase list by exactly one. -/
theorem add_phrase_length (s : Song) (notes mutes : List Char) :
    (s.add_phrase notes mutes).phrase_ls.length = s.phrase_ls.length + 1 := by
  simp [Song.add_phrase]

/-- The phrase-repetition loop of `gen_song` keeps the phrase count equal
to `num_phrases`, never removes phrases, and never exceeds a finite cap it
started under. -/
theorem repeat_phrase_loop_inv :
    ∀ (fuel : Nat) (g : Draws) (song : Song) (notes mutes : List Char)
      (num : Nat) (cap : Option Nat) (n : Nat) (song2 : Song) (num2 n2 : Nat),
    song.phrase_ls.length = num →
    repeat_phrase_loop g song notes mutes num cap n fuel = some (song2, num2, n2) →
    song2.phrase_ls.length = num2 ∧ num ≤ num2 ∧
    (∀ m, cap = some m → num ≤ m → num2 ≤ m) := by
  intro fuel
  induction fuel with
  | zero =>
    intro g song notes mutes num cap n song2 num2 n2 h hr
    simp [repeat_phrase_loop] at hr
  | succ fuel ih =>
    intro g song notes mutes num cap n song2 num2 n2 h hr
    rw [repeat_phrase_loop] at hr
    by_cases hc : (decide (g n < PHRASE_REPEAT_RATE) && lt_cap num cap) = true
    · rw [if_pos hc] at hr
      obtain ⟨ha, hb, hc2⟩ := ih g _ notes mutes (num + 1) cap (n + 1) song2 num2 n2
        (by rw [add_phrase_length, h]) hr
      refine ⟨ha, by omega, ?_⟩
      intro m hm hle
      apply hc2 m hm
      have hand := (Bool.and_eq_true _ _).mp hc
      rw [hm] at hand
      have h3 : num < m := by simpa [lt_cap] using hand.2
      omega
    · rw [if_neg hc] at hr
      obtain ⟨ha, hb, hcn⟩ :
          song = song2 ∧ num = num2 ∧ n + 1 = n2 := by
        have := Option.some.inj hr
        exact ⟨congrArg (·.1) this, congrArg (·.2.1) this,
          congrArg (·.2.2) this⟩
      refine ⟨by rw [← ha, ← hb]; exact h, by omega, fun m hm hle => by omega⟩

/-- The outer loop of `gen_song`: when it returns, the phrase count is at
least `min(min_phrases, cap)` and at most any finite cap it started
under. -/
theorem gen_song_loop_inv :
    ∀ (fuel : Nat) (g : Draws) (song : Song) (num min_p : Nat)
      (cap : Option Nat) (n : Nat) (song2 : Song),
    song.phrase_ls.length = num →
    (∀ m, cap = some m → num ≤ m) →
    gen_song_loop g song num min_p cap n fuel = some song2 →
    min_cap min_p cap ≤ song2.phrase_ls.length ∧
    (∀ m, cap = some m → song2.phrase_ls.length ≤ m) := by
  intro fuel
  induction fuel with
  | zero =>
    intro g song num min_p cap n song2 h hcap hr
    simp [gen_song_loop] at hr
  | succ fuel ih =>
    intro g song num min_p cap n song2 h hcap hr
    rw [gen_song_loop] at hr
    by_cases hc : num < min_cap min_p cap
    · rw [if_pos hc] at hr
      cases hgp : gen_phrase g n fuel with
      | none => rw [hgp] at hr; exact absurd hr (by simp)
      | some r =>
        rw [hgp] at hr
        obtain ⟨notes, mutes, n1⟩ := r
        simp only [] at hr
        cases hrp : repeat_phrase_loop g (song.add_phrase notes mutes) notes
            mutes (num + 1) cap n1 fuel with
        | none => rw [hrp] at hr; exact absurd hr (by simp)
        | some r2 =>
          rw [hrp] at hr
          obtain ⟨song3, num3, n3⟩ := r2
          obtain ⟨ha, hb, hc2⟩ := repeat_phrase_loop_inv fuel g _ notes mutes
            (num + 1) cap n1 song3 num3 n3 (by rw [add_phrase_length, h]) hrp
          refine ih g song3 num3 min_p cap n3 song2 ha ?_ hr
          intro m hm
          apply hc2 m hm
          have := hc
          rw [hm] at this
          simp only [min_cap] at this
          omega
    · rw [if_neg hc] at hr
      have heq : song = song2 := Option.some.inj hr
      subst heq
      exact ⟨by omega, fun m hm => by rw [h]; exact hcap m hm⟩

/-- Claim C1 (amended): for every draw stream, whenever `gen_song` returns
with `1 ≤ min_phrases ≤ max_phrases` (finite), the song holds at least
`min_phrases` and at most `max_phrases` phrases; with `max_phrases`
unbounded (`None`) the count is at least `min_phrases`.  The amendment is
the proviso `min_phrases ≤ max_phrases`: the loop only runs the count up to
`min(min_phrases, max_phrases)`, so when the cap is below the minimum the
claimed lower bound `min_phrases` fails (see the counterexample). -/
theorem gen_song_phrase_count_bounds (g : Draws) (t : Tuning)
    (n fuel min_p maxp : Nat) (s s2 : Song)
    (h1 : 1 ≤ min_p) (h2 : min_p ≤ maxp) :
    (gen_song g min_p (some maxp) t n fuel = some s →
      min_p ≤ s.phrase_ls.length ∧ s.phrase_ls.length ≤ maxp) ∧
    (gen_song g min_p none t n fuel = some s2 →
      min_p ≤ s2.phrase_ls.length) := by
  constructor
  · intro hr
    obtain ⟨k, rfl⟩ : ∃ k, maxp = k + 1 := ⟨maxp - 1, by omega⟩
    have hloop : gen_song_loop g (Song.init t) 0 min_p (some (k + 1)) n fuel
        = some s := hr
    obtain ⟨hlo, hhi⟩ := gen_song_loop_inv fuel g (Song.init t) 0 min_p
      (some (k + 1)) n s rfl (fun m _ => by omega) hloop
    constructor
    · have hmc : min_cap min_p (some (k + 1)) = min_p := by
        simp only [min_cap]
        omega
      rw [hmc] at hlo
      exact hlo
    · exact hhi (k + 1) rfl
  · intro hr
    rw [gen_song] at hr
    obtain ⟨hlo, _⟩ := gen_song_loop_inv fuel g (Song.init t) 0 min_p none n s2
      rfl (fun m hm => by simp at hm) hr
    simpa [min_cap] using hlo

/-- Counterexample for C1: with `min_phrases = 2` and `max_phrases = 1`
(both at least 1) and a draw stream on which the repetition draw fails, the
returned song has exactly 1 phrase, below the claimed lower bound
`min_phrases = 2`. -/
theorem gen_song_min_exceeds_max_counterexample :
    ((gen_song drawsHigh 2 (some 1) T2 0 100).getD (Song.init T2)).phrase_ls.length
      = 1 ∧
    (gen_song drawsHigh 2 (some 1) T2 0 100).isSome = true ∧ 1 < 2 := by
  decide

/-- Witness for C1: `min_phrases = max_phrases = 1` brackets the returned
count between 1 and 1. -/
theorem gen_song_phrase_count_bounds_witness :
    1 ≤ ((gen_song drawsHigh 1 (some 1) T2 0 100).getD (Song.init T2)).phrase_ls.length ∧
    ((gen_song drawsHigh 1 (some 1) T2 0 100).getD (Song.init T2)).phrase_ls.length ≤ 1 :=
  (gen_song_phrase_count_bounds drawsHigh T2 0 100 1 1
    ((gen_song drawsHigh 1 (some 1) T2 0 100).getD (Song.init T2)) (Song.init T2)
    (by decide) (by decide)).1 (by decide)

/-- Claim C9: for every draw stream and `min_phrases ≥ 1`, calling
`gen_song` with `max_phrases = 0` (or `None`/omitted) is treated as an
unbounded cap by the falsy check `if not max_phrases`: whenever the call
returns, the song holds at least `min_phrases` phrases rather than being
capped at zero. -/
theorem gen_song_zero_cap_is_unbounded (g : Draws) (t : Tuning)
    (n fuel min_p : Nat) (s s2 : Song) (h1 : 1 ≤ min_p) :
    (gen_song g min_p (some 0) t n fuel = some s →
      min_p ≤ s.phrase_ls.length) ∧
    (gen_song g min_p none t n fuel = some s2 →
      min_p ≤ s2.phrase_ls.length) := by
  constructor
  · intro hr
    rw [gen_song] at hr
    obtain ⟨hlo, _⟩ := gen_song_loop_inv fuel g (Song.init t) 0 min_p none n s
      rfl (fun m hm => by simp at hm) hr
    simpa [min_cap] using hlo
  · intro hr
    rw [gen_song] at hr
    obtain ⟨hlo, _⟩ := gen_song_loop_inv fuel g (Song.init t) 0 min_p none n s2
      rfl (fun m hm => by simp at hm) hr
    simpa [min_cap] using hlo

/-- Witness for C9: with `max_phrases = some 0` the song still gets its
single required phrase. -/
theorem gen_song_zero_cap_is_unbounded_witness :
    1 ≤ ((gen_song drawsHigh 1 (some 0) T2 0 100).getD (Song.init T2)).phrase_ls.length :=
  (gen_song_zero_cap_is_unbounded drawsHigh T2 0 100 1
    ((gen_song drawsHigh 1 (some 0) T2 0 100).getD (Song.init T2)) (Song.init T2)
    (by decide)).1 (by decide)

/-! ## Single-active-string claim -/

/-- Reading a mapped range list inside its bounds. -/
theorem getD_map_range {α : Type _} (ns j : Nat) (f : Nat → α) (d : α)
    (h : j < ns) :
    ((List.range ns).map f).getD j d = f j := by
  rw [List.getD_eq_getElem _ _ (by simpa using h)]
  simp

/-- `Song.add_phrase` does not change the song's tuning. -/
theorem add_phrase_tuning (s : Song) (notes mutes : List Char) :
    (s.add_phrase notes mutes).tuning = s.tuning := rfl

/-- The phrases of a song built by repeated `add_phrase` calls are the
`made_phrase` images of the added note/mute pairs, in order. -/
theorem add_phrases_phrase_ls (t : Tuning) :
    ∀ (ps : List (List Char × List Char)) (s : Song), s.tuning = t →
    (add_phrases s ps).phrase_ls = s.phrase_ls ++ ps.map (made_phrase t) := by
  intro ps
  induction ps with
  | nil => intro s ht; simp [add_phrases]
  | cons pr ps ih =>
    intro s ht
    rw [show add_phrases s (pr :: ps) = add_phrases (s.add_phrase pr.1 pr.2) ps
      from rfl]
    rw [ih (s.add_phrase pr.1 pr.2) (by rw [add_phrase_tuning, ht])]
    simp only [Song.add_phrase, List.map_cons, List.append_assoc,
      List.singleton_append, made_phrase, ht]

/-- The phrase built by `add_phrase` plays only the last line: all other
lines stay entirely silent, the last line carries exactly the given notes,
and it is labeled with the (lowercased) base note of the tuning. -/
theorem made_phrase_spec (t : Tuning) (pr : List Char × List Char)
    (h0 : 1 ≤ t.notes.length) :
    (made_phrase t pr).lines.length = t.notes.length ∧
    (∀ j, j + 1 < (made_phrase t pr).lines.length →
      ∀ c ∈ ((made_phrase t pr).lines.getD j ⟨"", []⟩).notes, c = '-') ∧
    ((made_phrase t pr).lines.getD ((made_phrase t pr).lines.length - 1)
      ⟨"", []⟩).notes = pr.1 ∧
    ((made_phrase t pr).lines.getD ((made_phrase t pr).lines.length - 1)
      ⟨"", []⟩).base_note = str_lower (t.notes.getD 0 "") := by
  have hlen : (made_phrase t pr).lines.length = t.notes.length := by
    simp [made_phrase, Phrase.set_notes, Phrase.init]
  refine ⟨hlen, ?_, ?_, ?_⟩
  · intro j hj c hc
    rw [hlen] at hj
    have hread : (made_phrase t pr).lines.getD j ⟨"", []⟩ =
        PhraseLine.init (t.notes.getD (t.notes.length - j - 1) "") pr.1.length := by
      show (((List.range t.notes.length).map
          (fun string_num => PhraseLine.init
            (t.notes.getD (t.notes.length - string_num - 1) "") pr.1.length)).set
          (t.notes.length - 1) _).getD j ⟨"", []⟩ = _
      rw [getD_set, if_neg (by intro hcon; omega),
        getD_map_range _ _ _ _ (by omega)]
    rw [hread] at hc
    simp only [PhraseLine.init] at hc
    exact List.eq_of_mem_replicate hc
  · have hread : (made_phrase t pr).lines.getD ((made_phrase t pr).lines.length - 1)
        ⟨"", []⟩ =
        { PhraseLine.init (t.notes.getD 0 "") pr.1.length with notes := pr.1 } := by
      rw [hlen]
      show (((List.range t.notes.length).map
          (fun string_num => PhraseLine.init
            (t.notes.getD (t.notes.length - string_num - 1) "") pr.1.length)).set
          (t.notes.length - 1)
          { ((List.range t.notes.length).map
              (fun string_num => PhraseLine.init
                (t.notes.getD (t.notes.length - string_num - 1) "") pr.1.length)).getD
              (t.notes.length - 1) ⟨"", []⟩ with notes := pr.1 }).getD
          (t.notes.length - 1) ⟨"", []⟩ = _
      rw [getD_set, if_pos ⟨rfl, by simp; omega⟩,
        getD_map_range _ _ _ _ (by omega)]
      have harg : t.notes.length - (t.notes.length - 1) - 1 = 0 := by omega
      rw [harg]
    rw [hread]
  · have hread : (made_phrase t pr).lines.getD ((made_phrase t pr).lines.length - 1)
        ⟨"", []⟩ =
        { PhraseLine.init (t.notes.getD 0 "") pr.1.length with notes := pr.1 } := by
      rw [hlen]
      show (((List.range t.notes.length).map
          (fun string_num => PhraseLine.init
            (t.notes.getD (t.notes.length - string_num - 1) "") pr.1.length)).set
          (t.notes.length - 1)
          { ((List.range t.notes.length).map
              (fun string_num => PhraseLine.init
                (t.notes.getD (t.notes.length - string_num - 1) "") pr.1.length)).getD
              (t.notes.length - 1) ⟨"", []⟩ with notes := pr.1 }).getD
          (t.notes.length - 1) ⟨"", []⟩ = _
      rw [getD_set, if_pos ⟨rfl, by simp; omega⟩,
        getD_map_range _ _ _ _ (by omega)]
      have harg : t.notes.length - (t.notes.length - 1) - 1 = 0 := by omega
      rw [harg]
    rw [hread]
    rfl

/-- Claim C10: in every phrase of a song built by `add_phrase` calls, only
the note line of the widest string (the last string line, labeled with the
tuning's base note) carries the generated note symbols; the note lines of
all other strings are entirely `'-'`, and, the structures being immutable
values, stay so for the life of the phrase. -/
theorem song_only_widest_string_played (t : Tuning)
    (ps : List (List Char × List Char)) (i : Nat)
    (h0 : 1 ≤ t.notes.length) (hi : i < ps.length) :
    (∀ j, j + 1 < (phrase_at (add_phrases (Song.init t) ps) i).lines.length →
      ∀ c ∈ ((phrase_at (add_phrases (Song.init t) ps) i).lines.getD j
        ⟨"", []⟩).notes, c = '-') ∧
    ((phrase_at (add_phrases (Song.init t) ps) i).lines.getD
      ((phrase_at (add_phrases (Song.init t) ps) i).lines.length - 1)
      ⟨"", []⟩).notes = (ps.getD i ([], [])).1 ∧
    ((phrase_at (add_phrases (Song.init t) ps) i).lines.getD
      ((phrase_at (add_phrases (Song.init t) ps) i).lines.length - 1)
      ⟨"", []⟩).base_note = str_lower (t.notes.getD 0 "") := by
  have hph : phrase_at (add_phrases (Song.init t) ps) i =
      made_phrase t (ps.getD i ([], [])) := by
    rw [phrase_at, add_phrases_phrase_ls t ps (Song.init t) rfl]
    show (ps.map (made_phrase t)).getD i ⟨0, [], ⟨[]⟩⟩ = _
    rw [List.getD_eq_getElem _ _ (by simpa using hi),
      List.getD_eq_getElem _ _ hi]
    simp
  rw [hph]
  obtain ⟨_, hsil, hnotes, hbase⟩ := made_phrase_spec t (ps.getD i ([], [])) h0
  exact ⟨hsil, hnotes, hbase⟩

/-- Witness for C10: for the two-string drop-A tuning and one added
phrase, the last line carries the added notes. -/
theorem song_only_widest_string_played_witness :
    ((phrase_at (add_phrases (Song.init T2) [([ '0' ], [ 'm' ])]) 0).lines.getD
      ((phrase_at (add_phrases (Song.init T2) [([ '0' ], [ 'm' ])]) 0).lines.length - 1)
      ⟨"", []⟩).notes = ([([ '0' ], [ 'm' ])].getD 0 ([], [])).1 :=
  (song_only_widest_string_played T2 [([ '0' ], [ 'm' ])] 0
    (by decide) (by decide)).2.1

end Djenterator
